import Mathlib

/-!
Verification of the resilient batch-dispatch agent layer of the
docutranslate repository against its natural-language specification.

The development shallowly embeds three source modules:

* `doctranslate/utils/json_utils.py` — `get_json_size`, `segments2json_chunks`
  (the chunk codec: splitting oversized segments by line, packing segments
  into size-bounded JSON chunks, recording merge ranges);
* `doctranslate/agents/agent.py` — the retry/error-budget state machine of
  `Agent.send` / `Agent.send_async`, the batch-start counter handling of
  `Agent.send_prompts` / `send_prompts_async`, `TotalErrorCounter`,
  `TokenCounter` and `extract_token_info`;
* `doctranslate/agents/segments_agent.py` — the result reconciler
  `SegmentsTranslateAgent._result_handler` (post-JSON-parsing part) and the
  merge/rebuild logic of `send_segments`.

Python strings are modelled as lists of Unicode code points (`List Char`);
byte sizes are computed through an explicit UTF-8 size function together with
the escaping rules of `json.dumps(..., ensure_ascii=False)`.
-/

set_option autoImplicit false

universe u

/-- A Python string: a sequence of Unicode code points. -/
abbrev Str := List Char

/-! ## Byte-size model of `json.dumps(..., ensure_ascii=False).encode("utf-8")`

`get_json_size` in `json_utils.py` serializes a `dict[str, str]` with the
default separators `", "` / `": "` and `ensure_ascii=False`, then takes the
UTF-8 byte length.  A serialized dict is
`"{" + ", ".join('"k": "v"') + "}"`, where every string is surrounded by
quotes and escaped: `"` and `\` become two characters, the control characters
BS HT LF FF CR become two-character escapes, any other control character
below U+0020 becomes a six-character `\u00XX` escape, and every other
character is emitted raw (contributing its UTF-8 byte length). -/

/-- UTF-8 byte length of one Unicode scalar value. -/
def utf8Sz (c : Char) : Nat :=
  if c.val < 0x80 then 1
  else if c.val < 0x800 then 2
  else if c.val < 0x10000 then 3
  else 4

/-- Bytes contributed by one character inside a JSON string literal produced
by `json.dumps` with `ensure_ascii=False`. -/
def escLen (c : Char) : Nat :=
  if c = '"' ∨ c = '\\' then 2
  else if c = '\x08' ∨ c = '\t' ∨ c = '\n' ∨ c = '\x0c' ∨ c = '\r' then 2
  else if c.val < 0x20 then 6
  else utf8Sz c

/-- Byte length of a string serialized as a JSON string literal
(surrounding quotes included). -/
def strJsonLen (s : Str) : Nat := 2 + (s.map escLen).sum

/-- Byte length of one `"key": "value"` entry. -/
def entrySz (k v : Str) : Nat := strJsonLen k + 2 + strJsonLen v

/-- `get_json_size` (json_utils.py line 7): byte size of a string-to-string
dict serialized by `json.dumps(..., ensure_ascii=False)` and UTF-8 encoded.
`"{}"` is two bytes; otherwise braces plus entries joined by `", "`. -/
def get_json_size (js : List (Str × Str)) : Nat :=
  match js with
  | [] => 2
  | _ => 2 + ((js.map fun p => entrySz p.1 p.2).sum) + 2 * (js.length - 1)

/-- Size of the one-pair dict used for the per-segment estimate,
`get_json_size({long_key_estimate: segment})`. -/
def singlePairSize (k v : Str) : Nat := get_json_size [(k, v)]

/-! ## Decimal rendering of integer keys (`str(i)` in Python)

The codec keys its dicts with `str(i)`.  We render decimals with a
fuel-driven recursion so the kernel can evaluate it, and prove the rendering
injective via an explicit evaluation function. -/

/-- The decimal digit character for `n % 10`. -/
def digitChar (n : Nat) : Char :=
  match n with
  | 0 => '0' | 1 => '1' | 2 => '2' | 3 => '3' | 4 => '4'
  | 5 => '5' | 6 => '6' | 7 => '7' | 8 => '8' | _ => '9'

/-- Numeric value of a decimal digit character. -/
def digitVal (c : Char) : Nat :=
  match c with
  | '0' => 0 | '1' => 1 | '2' => 2 | '3' => 3 | '4' => 4
  | '5' => 5 | '6' => 6 | '7' => 7 | '8' => 8 | _ => 9

/-- Fueled decimal rendering; the fuel only needs to exceed the number. -/
def natStrGo : Nat → Nat → Str
  | 0, _ => []
  | fuel + 1, n =>
    if n < 10 then [digitChar n]
    else natStrGo fuel (n / 10) ++ [digitChar (n % 10)]

/-- `str(n)` for a natural number: decimal, no sign, no leading zeros. -/
def natStr (n : Nat) : Str := natStrGo (n + 1) n

/-- Evaluate a digit string back to a number. -/
def natVal (s : Str) : Nat := s.foldl (fun a c => 10 * a + digitVal c) 0

/-! ## `str.splitlines(keepends=True)`

Python's `splitlines` splits at LF, CR, CRLF (one terminator), VT, FF,
FS, GS, RS, NEL, LINE SEPARATOR and PARAGRAPH SEPARATOR, keeping the
terminator attached to its line; a trailing fragment without terminator is
kept; the empty string yields no lines. -/

/-- Characters Python `str.splitlines` treats as line boundaries. -/
def isLineBreak (c : Char) : Bool :=
  c = '\n' ∨ c = '\r' ∨ c = '\x0b' ∨ c = '\x0c' ∨
  c = '\x1c' ∨ c = '\x1d' ∨ c = '\x1e' ∨ c = '\x85' ∨
  c.val = 0x2028 ∨ c.val = 0x2029

/-- Worker for `splitlines(keepends=True)`; `cur` is the current line,
reversed. -/
def pySplitLinesGo (cur : Str) : Str → List Str
  | [] => if cur.isEmpty then [] else [cur.reverse]
  | '\r' :: '\n' :: rest => ('\n' :: '\r' :: cur).reverse :: pySplitLinesGo [] rest
  | c :: rest =>
    if isLineBreak c then (c :: cur).reverse :: pySplitLinesGo [] rest
    else pySplitLinesGo (c :: cur) rest

/-- `segment.splitlines(keepends=True)`. -/
def pySplitLines (s : Str) : List Str := pySplitLinesGo [] s

/-! ## `segments2json_chunks` part 1: splitting oversized segments by line

`json_utils.py` lines 23–56.  A segment whose estimated one-pair JSON size
exceeds `chunk_size_max` is split at line boundaries: the loop accumulates
lines into `current_sub_segment`; when `current + line` would exceed the
limit it appends the non-empty accumulation, then appends `line` itself as
an independent sub-segment and restarts from an empty accumulation. -/

/-- The line-accumulation loop (json_utils.py lines 30–45), over the list of
lines, with `cur` the `current_sub_segment`; the trailing non-empty
accumulation is appended after the loop. -/
def splitLoop (key : Str) (maxSz : Nat) : List Str → Str → List Str
  | [], cur => if cur.isEmpty then [] else [cur]
  | line :: rest, cur =>
    if singlePairSize key (cur ++ line) > maxSz then
      (if cur.isEmpty then [] else [cur]) ++ line :: splitLoop key maxSz rest []
    else splitLoop key maxSz rest (cur ++ line)

/-- Sub-segments of one oversized segment (json_utils.py lines 28–48),
including the `if not sub_segments and segment == ""` special case. -/
def subSegmentsOf (key : Str) (maxSz : Nat) (seg : Str) : List Str :=
  let subs := splitLoop key maxSz (pySplitLines seg) []
  if subs.isEmpty ∧ seg.isEmpty then [[]] else subs

/-- Part 1 of `segments2json_chunks` (json_utils.py lines 20–56): build
`new_segments` and `merged_indices_list`.  `totalLen` is `len(segments)`
(fixed), `offset` is the current `len(new_segments)`; the estimation key is
`str(len(segments) + len(new_segments))`.  A merge range is recorded only
when a segment produced more than one sub-segment. -/
def part1 (maxSz totalLen : Nat) : Nat → List Str → List Str × List (Nat × Nat)
  | _, [] => ([], [])
  | offset, seg :: rest =>
    let key := natStr (totalLen + offset)
    if singlePairSize key seg > maxSz then
      let subs := subSegmentsOf key maxSz seg
      let next := part1 maxSz totalLen (offset + subs.length) rest
      (subs ++ next.1,
       (if 1 < subs.length then [(offset, offset + subs.length)] else []) ++ next.2)
    else
      let next := part1 maxSz totalLen (offset + 1) rest
      (seg :: next.1, next.2)

/-! ## `segments2json_chunks` part 2: greedy packing into chunks

`json_utils.py` lines 58–77.  Chunks are dicts keyed by `str(index)`; we
carry the numeric index and render it for size computation. -/

/-- Serialized byte size of a chunk whose keys are `str(index)`. -/
def chunkSize (ck : List (Nat × Str)) : Nat :=
  get_json_size (ck.map fun p => (natStr p.1, p.2))

/-- The packing loop (json_utils.py lines 63–77): `chunk` is the running
chunk, `idx` the current `enumerate` index.  A prospective chunk that would
exceed the limit closes the running chunk only if the running chunk is
non-empty; the final non-empty running chunk is appended after the loop. -/
def part2Go (maxSz : Nat) (chunk : List (Nat × Str)) (idx : Nat) :
    List Str → List (List (Nat × Str))
  | [] => if chunk.isEmpty then [] else [chunk]
  | v :: rest =>
    let pros := chunk ++ [(idx, v)]
    if chunkSize pros > maxSz ∧ ¬chunk.isEmpty then
      chunk :: part2Go maxSz [(idx, v)] (idx + 1) rest
    else
      part2Go maxSz pros (idx + 1) rest

/-- `segments2json_chunks` (json_utils.py lines 12–85): returns the complete
indexed-originals dict `js = {str(i): segment}`, the packed chunk list, and
the merge-range list; an empty `new_segments` short-circuits to three empty
results. -/
def segments2json_chunks (segments : List Str) (maxSz : Nat) :
    List (Str × Str) × List (List (Nat × Str)) × List (Nat × Nat) :=
  let pr := part1 maxSz segments.length 0 segments
  if pr.1.isEmpty then ([], [], [])
  else
    (pr.1.enum.map fun p => (natStr p.1, p.2), part2Go maxSz [] 0 pr.1, pr.2)

/-! ## `send_segments` merge and rebuild (segments_agent.py lines 150–185)

After dispatch, each per-chunk result is merged back into a copy of the
indexed originals: non-dict results are skipped, entries whose key is
already present overwrite the stored value, unknown keys are ignored.  The
final list is rebuilt by walking the values in order and concatenating each
merge range into a single element. -/

/-- One per-chunk dispatch result as seen by the merge loop: either not a
dict (skipped with a warning) or a string-keyed dict. -/
inductive ChunkResult where
  | notDict
  | dict (entries : List (Str × Str))

/-- First-match association-list lookup (Python `d[k]` / `k in d` on dicts
whose keys are unique). -/
def lookupV {α : Type u} (l : List (Str × α)) (k : Str) : Option α :=
  match l with
  | [] => none
  | p :: rest => if p.1 = k then some p.2 else lookupV rest k

/-- `if key in indexed_translated: indexed_translated[key] = val`
(segments_agent.py lines 164–168): overwrite the value of an existing key,
ignore an unknown key. -/
def mergeChunkEntry (js : List (Str × Str)) (k v : Str) : List (Str × Str) :=
  if js.any fun p => p.1 == k then
    js.map fun p => if p.1 = k then (k, v) else p
  else js

/-- Merge one result chunk's entries in order. -/
def mergeChunk (js : List (Str × Str)) (ck : List (Str × Str)) :
    List (Str × Str) :=
  ck.foldl (fun acc p => mergeChunkEntry acc p.1 p.2) js

/-- Merge all per-chunk results (segments_agent.py lines 158–172). -/
def mergeResults (js : List (Str × Str)) (results : List ChunkResult) :
    List (Str × Str) :=
  results.foldl
    (fun acc r =>
      match r with
      | .notDict => acc
      | .dict ck => mergeChunk acc ck)
    js

/-- The rebuild loop (segments_agent.py lines 174–185): `pos` is `last_end`;
for each merge range `(s, e)` emit the pass-through slice `ls[pos:s]`, then
the concatenation `"".join(ls[s:e])` as one element, then continue from `e`;
after the last range emit `ls[pos:]`. -/
def rebuild (ls : List Str) (pos : Nat) : List (Nat × Nat) → List Str
  | [] => ls.drop pos
  | (s, e) :: rest =>
    ((ls.drop pos).take (s - pos)) ++
      ((ls.drop s).take (e - s)).flatten :: rebuild ls e rest

/-- `send_segments` after dispatch, as a function of the per-chunk results:
chunk the segments, merge arbitrary results into the indexed originals, and
rebuild the final ordered list. -/
def sendSegmentsModel (segments : List Str) (maxSz : Nat)
    (results : List ChunkResult) : List Str :=
  let c := segments2json_chunks segments maxSz
  rebuild ((mergeResults c.1 results).map fun p => p.2) 0 c.2.2

/-- The identity translation: every chunk comes back exactly as sent
(keys rendered as the strings `str(i)` they are serialized with). -/
def identityResults (cks : List (List (Nat × Str))) : List ChunkResult :=
  cks.map fun ck => .dict (ck.map fun p => (natStr p.1, p.2))

/-- Round trip of the codec under the identity translation. -/
def roundTrip (segments : List Str) (maxSz : Nat) : List Str :=
  sendSegmentsModel segments maxSz
    (identityResults (segments2json_chunks segments maxSz).2.1)

/-! ## The split algorithm the specification describes (claim C3)

Modelled from the spec: "split the segment by line (preserving line
terminators) into sub-segments, greedily accumulating lines into a
sub-segment until adding the next line would exceed the limit; a single
line that itself exceeds the limit becomes its own sub-segment (not further
split); an empty segment yields one empty sub-segment."  Under this reading
a line that merely overflows the current accumulation seeds the next
accumulation; only a line oversized by itself stands alone. -/

/-- Maximally greedy line accumulation as worded by the specification. -/
def specGreedy (key : Str) (maxSz : Nat) : List Str → Str → List Str
  | [], cur => if cur.isEmpty then [] else [cur]
  | line :: rest, cur =>
    if singlePairSize key (cur ++ line) > maxSz then
      if cur.isEmpty then line :: specGreedy key maxSz rest []
      else if singlePairSize key line > maxSz then
        cur :: line :: specGreedy key maxSz rest []
      else cur :: specGreedy key maxSz rest line
    else specGreedy key maxSz rest (cur ++ line)

/-- The spec-worded counterpart of `subSegmentsOf`. -/
def specGreedySplit (key : Str) (maxSz : Nat) (seg : Str) : List Str :=
  let subs := specGreedy key maxSz (pySplitLines seg) []
  if subs.isEmpty ∧ seg.isEmpty then [[]] else subs
/-! ## The dispatch state machine of `Agent.send` / `Agent.send_async`

`agent.py` lines 299–446 (async) and 528–672 (sync); the two bodies are
line-for-line identical in their control flow.  One attempt either returns a
result (possibly transformed by `result_handler`) or raises: an
`AgentResultError` (soft, invalid), a `PartialAgentResultError` (soft,
carrying a partial result), or one of the hard errors
(`httpx.HTTPStatusError`, `httpx.RequestError`, `KeyError`/`IndexError`/
`ValueError`).  We abstract one attempt into an outcome and model the retry
recursion with explicit fuel (the recursion depth is bounded by
`retry_count` reaching `self.retry`, so fuel `retry + 1` is never
exhausted). -/

/-- Classification of one attempt, after `result_handler` ran. -/
inductive AOutcome (ρ π : Type) where
  | success (r : ρ)
  | softInvalid
  | softPartial (p : π)
  | hard
deriving DecidableEq

/-- What `send` finally returns: a handled success value, the accumulated
best partial result, the error handler applied to the (post-`pre_send`)
prompt, or the raw prompt itself. -/
inductive SendRet (ρ π φ : Type) where
  | ok (r : ρ)
  | fromPartial (p : π)
  | handled (f : φ)
  | rawPrompt
deriving DecidableEq

/-- Shared error-budget counter state (`TotalErrorCounter`, agent.py lines
54–69) plus the unresolved-error counter. -/
structure ErrState where
  errCount : Nat
  maxErrors : Nat
  unresolved : Nat
deriving DecidableEq

/-- `TotalErrorCounter.reach_limit` (agent.py line 68): `count > max`. -/
def reachLimit (st : ErrState) : Bool := st.maxErrors < st.errCount

/-- Fixed data of one logical request: the retry ceiling `self.retry`, the
outcome of each attempt (attempt `i` is the call with `retry_count = i`),
the optional `error_result_handler`, the prompt, and Python truthiness of a
partial-result value (`if best_partial_result:`). -/
structure SendCfg (ρ π φ : Type) where
  retryMax : Nat
  outcome : Nat → AOutcome ρ π
  errHandler : Option (String → φ)
  prompt : String
  partTruthy : π → Bool

/-- `prompt if error_result_handler is None else error_result_handler(prompt)`. -/
def promptFallback {ρ π φ : Type} (cfg : SendCfg ρ π φ) : SendRet ρ π φ :=
  match cfg.errHandler with
  | some h => .handled (h cfg.prompt)
  | none => .rawPrompt

/-- `best_partial_result if best_partial_result else (prompt if ... else
handler(prompt))` — note Python truthiness: a falsy partial value (e.g. an
empty dict) is skipped. -/
def fallbackRet {ρ π φ : Type} (cfg : SendCfg ρ π φ) (bp : Option π) :
    SendRet ρ π φ :=
  match bp with
  | some p => if cfg.partTruthy p then .fromPartial p else promptFallback cfg
  | none => promptFallback cfg

/-- Result of one full `send` call: final counter state, final
`best_partial_result`, number of attempts executed, and the returned value. -/
structure SendOut (ρ π φ : Type) where
  st : ErrState
  bp : Option π
  attempts : Nat
  ret : SendRet ρ π φ
deriving DecidableEq

/-- The recursive body of `Agent.send` / `send_async` (agent.py lines
324–446 sync: 552–672).  `flag` is the `retry` parameter (recursive calls
pass `True`), `rc` is `retry_count`, `bp` is `best_partial_result`.  On a
hard error within the retry guard: at `retry_count == 0` the shared counter
is incremented and, if the limit is then reached, the request falls back
immediately; at `retry_count > 0` the counter is only read.  Terminal
fallbacks increment the unresolved-error counter. -/
def sendGo {ρ π φ : Type} (cfg : SendCfg ρ π φ) :
    Nat → Bool → Nat → ErrState → Option π → SendOut ρ π φ
  | 0, _, rc, st, bp => ⟨st, bp, rc, .rawPrompt⟩
  | fuel + 1, flag, rc, st, bp =>
    match cfg.outcome rc with
    | .success r => ⟨st, bp, rc + 1, .ok r⟩
    | .softInvalid =>
      if flag ∧ rc < cfg.retryMax then
        sendGo cfg fuel true (rc + 1) st bp
      else
        ⟨{ st with unresolved := st.unresolved + 1 }, bp, rc + 1, fallbackRet cfg bp⟩
    | .softPartial p =>
      let bp1 := if cfg.partTruthy p then some p else bp
      if flag ∧ rc < cfg.retryMax then
        sendGo cfg fuel true (rc + 1) st bp1
      else
        ⟨{ st with unresolved := st.unresolved + 1 }, bp1, rc + 1, fallbackRet cfg bp1⟩
    | .hard =>
      if flag ∧ rc < cfg.retryMax then
        if rc = 0 then
          let st1 := { st with errCount := st.errCount + 1 }
          if reachLimit st1 then
            ⟨{ st1 with unresolved := st1.unresolved + 1 }, bp, rc + 1, fallbackRet cfg bp⟩
          else sendGo cfg fuel true (rc + 1) st1 bp
        else
          if reachLimit st then
            ⟨{ st with unresolved := st.unresolved + 1 }, bp, rc + 1, fallbackRet cfg bp⟩
          else sendGo cfg fuel true (rc + 1) st bp
      else
        ⟨{ st with unresolved := st.unresolved + 1 }, bp, rc + 1, fallbackRet cfg bp⟩

/-- One logical request: `send(..., retry=flag, retry_count=0,
best_partial_result=bp)`. -/
def sendModel {ρ π φ : Type} (cfg : SendCfg ρ π φ) (flag : Bool)
    (st : ErrState) (bp : Option π) : SendOut ρ π φ :=
  sendGo cfg (cfg.retryMax + 1) flag 0 st bp

/-- Whether this request increments the shared hard-error counter: its first
attempt is a hard error, retrying is enabled, and the retry ceiling is
positive. -/
def hardFirst {ρ π φ : Type} (cfg : SendCfg ρ π φ) (flag : Bool) : Bool :=
  (match cfg.outcome 0 with | .hard => true | _ => false) &&
    flag && decide (0 < cfg.retryMax)

/-! ## Batch start (`Agent.send_prompts` / `send_prompts_async`)

agent.py lines 695–763 (sync) and 448–526 (async).  At the start of a batch
the ceiling of the shared `TotalErrorCounter` is set to
`len(prompts) // MAX_REQUESTS_PER_ERROR` (15), `unresolved_error_count` is
set to 0 and the token counter is reset; `TotalErrorCounter.count` itself is
not touched. -/

/-- `TokenCounter` fields (agent.py lines 148–192). -/
structure TokenStats where
  input : Int
  cached : Int
  output : Int
  reasoning : Int
  total : Int
deriving DecidableEq

/-- `TokenCounter.reset` target state. -/
def tokenStatsZero : TokenStats := ⟨0, 0, 0, 0, 0⟩

/-- `TokenCounter.add` (agent.py lines 158–170): the four fields are added
and `total` grows by `input + output`. -/
def tokenAdd (s : TokenStats) (q : Int × Int × Int × Int) : TokenStats :=
  { input := s.input + q.1
    cached := s.cached + q.2.1
    output := s.output + q.2.2.1
    reasoning := s.reasoning + q.2.2.2
    total := s.total + q.1 + q.2.2.1 }

/-- Accumulate a batch of per-request token quadruples. -/
def tokenFold (qs : List (Int × Int × Int × Int)) : TokenStats :=
  qs.foldl tokenAdd tokenStatsZero

/-- The batch-end summary's failure test (agent.py line 754 / 517):
`token_stats["input_tokens"] < 0`. -/
def summaryFailed (s : TokenStats) : Bool := s.input < 0

/-- The per-agent mutable counters shared across batches. -/
structure AgentGlobal where
  errCount : Nat
  maxErrors : Nat
  unresolved : Nat
  tokens : TokenStats
deriving DecidableEq

/-- The counter updates performed at the start of `send_prompts` /
`send_prompts_async` (agent.py lines 709–716 and 465–472): set the ceiling
to `len(prompts) // 15`, zero the unresolved-error counter, reset the token
counter.  `total_error_counter.count` is not assigned. -/
def batchStart (numPrompts : Nat) (g : AgentGlobal) : AgentGlobal :=
  { g with
    maxErrors := numPrompts / 15
    unresolved := 0
    tokens := tokenStatsZero }

/-- `reach_limit` read off the per-agent state. -/
def reachLimitG (g : AgentGlobal) : Bool := g.maxErrors < g.errCount
/-! ## The result reconciler (`SegmentsTranslateAgent._result_handler`)

segments_agent.py lines 77–130.  We model the handler from line 93 onward,
after `fix_json_string`/`json_repair` have parsed the model output and
`json.loads` has parsed the original prompt: `original` is the parsed sent
chunk (string keys to string values) and the received value is either not a
dict or a dict from string keys to opaque parsed JSON values `υ`, compared
with strings through `eqS` (Python `==`) and stringified through `pyStr`
(Python `str`). -/

/-- A parsed model response as the handler sees it. -/
inductive RVal (υ : Type) where
  | notDict
  | dict (entries : List (String × υ))

/-- Outcome of the handler: `AgentResultError` raised, a
`PartialAgentResultError` carrying a merged dict, or a returned dict with
stringified values. -/
inductive HOut (υ : Type) where
  | invalid
  | partialRes (merged : List (String × String))
  | okRes (final : List (String × String))

/-- First-match association-list lookup with `String` keys. -/
def lookupS {α : Type u} (l : List (String × α)) (k : String) : Option α :=
  match l with
  | [] => none
  | p :: rest => if p.1 = k then some p.2 else lookupS rest k

/-- Python `repaired_result == original_chunk` on dicts (CPython: equal
lengths, and every key of the left dict is present in the right with an
equal value). -/
def pyDictEq {υ : Type} (eqS : υ → String → Bool)
    (d : List (String × υ)) (o : List (String × String)) : Bool :=
  d.length == o.length &&
    d.all fun p =>
      match lookupS o p.1 with
      | some s => eqS p.2 s
      | none => false

/-- The best-effort merged dict built on a key mismatch (segments_agent.py
lines 104–117): for keys present in both take the stringified received
value, for keys missing from the response take the original sent text.  The
source fills `final_chunk` by iterating the unordered sets `common_keys`
and `missing_keys`; we realize the same key-to-value mapping by walking the
original entries. -/
def mergedOf {υ : Type} (pyStr : υ → String)
    (d : List (String × υ)) (o : List (String × String)) :
    List (String × String) :=
  o.map fun q =>
    (q.1, match lookupS d q.1 with
          | some v => pyStr v
          | none => q.2)

/-- `_result_handler` from line 93 on: not-a-dict raises `AgentResultError`;
a dict equal to the original raises `AgentResultError` (no-op echo); a key
mismatch raises `PartialAgentResultError` with the merged dict; otherwise
all values are stringified in place and returned. -/
def resultHandlerCore {υ : Type} (eqS : υ → String → Bool)
    (pyStr : υ → String) (original : List (String × String)) :
    RVal υ → HOut υ
  | .notDict => .invalid
  | .dict d =>
    if pyDictEq eqS d original then .invalid
    else if (d.map fun p => p.1).toFinset ≠ (original.map fun p => p.1).toFinset then
      .partialRes (mergedOf pyStr d original)
    else
      .okRes (d.map fun p => (p.1, pyStr p.2))

/-! ## Token-usage extraction (`extract_token_info`, agent.py lines 86–145)

The response JSON is modelled by a small recursive value type.  Python
`"k" in v` raises `TypeError` when `v` is a number, boolean or `None`, does
a substring test when `v` is a string, and a key test when `v` is a dict;
`v["k"]` on a string raises `TypeError`.  The `try` block catches exactly
`TypeError` and reports `(-1, -1, -1, -1)`. -/

/-- Parsed JSON values (arrays are not needed by the extraction paths). -/
inductive J where
  | num (n : Int)
  | str (s : String)
  | bool (b : Bool)
  | null
  | obj (fields : List (String × J))

/-- Dict lookup on parsed JSON objects. -/
def jLookup (fields : List (String × J)) (k : String) : Option J :=
  match fields with
  | [] => none
  | p :: rest => if p.1 = k then some p.2 else jLookup rest k

/-- Is `needle` a prefix of `hay`? -/
def strPrefixB : List Char → List Char → Bool
  | [], _ => true
  | _ :: _, [] => false
  | a :: as, b :: bs => a == b && strPrefixB as bs

/-- Python substring test `needle in hay`. -/
def strSubB (needle : List Char) : List Char → Bool
  | [] => strPrefixB needle []
  | c :: rest => strPrefixB needle (c :: rest) || strSubB needle rest

/-- Python `k in v`: `.error ()` models a raised `TypeError`. -/
def pyIn (k : String) : J → Except Unit Bool
  | .obj fs => .ok (jLookup fs k).isSome
  | .str s => .ok (strSubB k.data s.data)
  | _ => .error ()

/-- Python `v[k]`, reached only after `k in v` returned `True`: on a dict
the value is present; on a string the subscript raises `TypeError`. -/
def pyIndexE (k : String) : J → Except Unit J
  | .obj fs =>
    match jLookup fs k with
    | some v => .ok v
    | none => .error ()
  | _ => .error ()

/-- The cached-token shapes (agent.py lines 112–127): shape 1
`input_tokens_details.cached_tokens`, shape 2
`prompt_tokens_details.cached_tokens`, shape 3 `prompt_cache_hit_tokens`,
default 0. -/
def cachedShape3 (uf : List (String × J)) : Except Unit J :=
  .ok ((jLookup uf "prompt_cache_hit_tokens").getD (J.num 0))

def cachedShape2 (uf : List (String × J)) : Except Unit J :=
  match jLookup uf "prompt_tokens_details" with
  | some d => do
    if (← pyIn "cached_tokens" d) then pyIndexE "cached_tokens" d
    else cachedShape3 uf
  | none => cachedShape3 uf

def cachedOf (uf : List (String × J)) : Except Unit J :=
  match jLookup uf "input_tokens_details" with
  | some d => do
    if (← pyIn "cached_tokens" d) then pyIndexE "cached_tokens" d
    else cachedShape2 uf
  | none => cachedShape2 uf

/-- The reasoning-token shapes (agent.py lines 129–141): shape 1
`output_tokens_details.reasoning_tokens`, shape 2
`completion_tokens_details.reasoning_tokens`, default 0. -/
def reasoningShape2 (uf : List (String × J)) : Except Unit J :=
  match jLookup uf "completion_tokens_details" with
  | some d => do
    if (← pyIn "reasoning_tokens" d) then pyIndexE "reasoning_tokens" d
    else .ok (J.num 0)
  | none => .ok (J.num 0)

def reasoningOf (uf : List (String × J)) : Except Unit J :=
  match jLookup uf "output_tokens_details" with
  | some d => do
    if (← pyIn "reasoning_tokens" d) then pyIndexE "reasoning_tokens" d
    else reasoningShape2 uf
  | none => reasoningShape2 uf

/-- `extract_token_info` (agent.py lines 86–145): absent `usage` yields four
zeros; otherwise `prompt_tokens`/`completion_tokens` are read with default 0
and the nested detail shapes are tried inside a `try` whose `TypeError`
handler returns four `-1` sentinels.  `none` models the uncaught
`AttributeError` raised by `.get` when `usage` is not a dict. -/
def extract_token_info (response : List (String × J)) :
    Option (J × J × J × J) :=
  match jLookup response "usage" with
  | none => some (J.num 0, J.num 0, J.num 0, J.num 0)
  | some u =>
    match u with
    | .obj uf =>
      let inputT := (jLookup uf "prompt_tokens").getD (J.num 0)
      let outputT := (jLookup uf "completion_tokens").getD (J.num 0)
      match (do
        let c ← cachedOf uf
        let r ← reasoningOf uf
        pure (c, r) : Except Unit (J × J)) with
      | .ok (c, r) => some (inputT, c, outputT, r)
      | .error _ => some (J.num (-1), J.num (-1), J.num (-1), J.num (-1))
    | _ => none
/-- The attempt outcomes of the C4 counterexample request: a soft error on
the first attempt, a hard error on the first retry, then success. -/
def cfgC4 : SendCfg Unit Unit Unit where
  retryMax := 2
  outcome := fun rc => if rc = 0 then .softInvalid else if rc = 1 then .hard else .success ()
  errHandler := none
  prompt := ""
  partTruthy := fun _ => true

/-- The attempt outcomes of the C8 witness request: every attempt is a soft
invalid result (e.g. a no-op echo). -/
def cfgC8 : SendCfg Unit Unit Unit where
  retryMax := 2
  outcome := fun _ => .softInvalid
  errHandler := none
  prompt := ""
  partTruthy := fun _ => true

/-! # Theorems -/

/-! ## Decimal rendering -/

theorem digitVal_digitChar (m : Nat) (h : m < 10) : digitVal (digitChar m) = m := by
  interval_cases m <;> rfl

theorem natVal_append_digit (xs : Str) (c : Char) :
    natVal (xs ++ [c]) = 10 * natVal xs + digitVal c := by
  simp [natVal, List.foldl_append]

theorem natVal_natStrGo (fuel n : Nat) (h : n < fuel) :
    natVal (natStrGo fuel n) = n := by
  induction fuel generalizing n with
  | zero => omega
  | succ fuel ih =>
    by_cases h10 : n < 10
    · simp [natStrGo, h10, natVal, digitVal_digitChar n h10]
    · have hdiv : n / 10 < n := Nat.div_lt_self (by omega) (by omega)
      have : n / 10 < fuel := by omega
      simp [natStrGo, h10, natVal_append_digit, ih (n / 10) this,
        digitVal_digitChar (n % 10) (Nat.mod_lt n (by omega))]
      omega

theorem natVal_natStr (n : Nat) : natVal (natStr n) = n :=
  natVal_natStrGo (n + 1) n (Nat.lt_succ_self n)

theorem natStr_injective : Function.Injective natStr := by
  intro a b h
  have := natVal_natStr a
  rw [h, natVal_natStr] at this
  omega

/-! ## `splitlines` -/

theorem pySplitLinesGo_join (cur s : Str) :
    (pySplitLinesGo cur s).flatten = cur.reverse ++ s := by
  induction cur, s using pySplitLinesGo.induct with
  | case1 cur h => simp_all [pySplitLinesGo, List.isEmpty_iff]
  | case2 cur h => simp_all [pySplitLinesGo, List.isEmpty_iff]
  | case3 cur rest ih => simp_all [pySplitLinesGo]
  | case4 cur c rest hcr hbr ih => simp_all [pySplitLinesGo]
  | case5 cur c rest hcr hbr ih => simp_all [pySplitLinesGo]

theorem pySplitLines_join (s : Str) : (pySplitLines s).flatten = s := by
  simpa using pySplitLinesGo_join [] s

theorem pySplitLinesGo_ne_nil (cur s : Str) :
    ∀ l ∈ pySplitLinesGo cur s, l ≠ [] := by
  induction cur, s using pySplitLinesGo.induct with
  | case1 cur h => simp_all [pySplitLinesGo, List.isEmpty_iff]
  | case2 cur h => simp_all [pySplitLinesGo, List.isEmpty_iff]
  | case3 cur rest ih => simp_all [pySplitLinesGo]
  | case4 cur c rest hcr hbr ih => simp_all [pySplitLinesGo]
  | case5 cur c rest hcr hbr ih => simp_all [pySplitLinesGo]

theorem pySplitLines_ne_nil (s : Str) : ∀ l ∈ pySplitLines s, l ≠ [] :=
  pySplitLinesGo_ne_nil [] s

/-! ## The line-splitting loop -/

theorem splitLoop_join (key : Str) (maxSz : Nat) (lines : List Str) (cur : Str) :
    (splitLoop key maxSz lines cur).flatten = cur ++ lines.flatten := by
  induction lines generalizing cur with
  | nil =>
    by_cases h : cur.isEmpty <;> simp_all [splitLoop, List.isEmpty_iff]
  | cons line rest ih =>
    by_cases hs : singlePairSize key (cur ++ line) > maxSz
    · by_cases h : cur.isEmpty <;>
        simp_all [splitLoop, List.isEmpty_iff, ih]
    · simp [splitLoop, hs, ih]

/-- A flatten of non-empty pieces is empty exactly when there are no
pieces. -/
theorem flatten_isEmpty_of_ne (cb : List Str) (hcb : ∀ l ∈ cb, l ≠ []) :
    (cb.flatten).isEmpty = cb.isEmpty := by
  rcases cb with - | ⟨b, bs⟩
  · rfl
  · have hb : b ≠ [] := hcb b (by simp)
    rcases b with - | ⟨c, cs⟩
    · exact absurd rfl hb
    · simp

/-- Every sub-segment the loop emits is a concatenation of a non-empty
block of consecutive input lines; the blocks partition the input (with the
accumulated block `cb` prepended). -/
theorem splitLoop_blocks (key : Str) (maxSz : Nat) (lines : List Str)
    (hlines : ∀ l ∈ lines, l ≠ []) (cb : List Str) (hcb : ∀ l ∈ cb, l ≠ []) :
    ∃ blocks : List (List Str),
      blocks.flatten = cb ++ lines ∧
      splitLoop key maxSz lines cb.flatten = blocks.map List.flatten ∧
      ∀ b ∈ blocks, b ≠ [] := by
  induction lines generalizing cb with
  | nil =>
    rcases cb with - | ⟨b, bs⟩
    · exact ⟨[], by simp [splitLoop]⟩
    · have hne : ((b :: bs).flatten).isEmpty = false := by
        rw [flatten_isEmpty_of_ne (b :: bs) hcb]; rfl
      refine ⟨[b :: bs], by simp, ?_, ?_⟩
      · have hun : splitLoop key maxSz [] ((b :: bs).flatten) =
            if ((b :: bs).flatten).isEmpty then [] else [(b :: bs).flatten] := by
          simp [splitLoop]
        rw [hun, hne]
        simp
      intro blk hblk
      rw [List.mem_singleton] at hblk
      subst hblk
      exact List.cons_ne_nil b bs
  | cons line rest ih =>
    have hline : line ≠ [] := hlines line (by simp)
    have hrest : ∀ l ∈ rest, l ≠ [] := fun l hl => hlines l (by simp [hl])
    by_cases hs : singlePairSize key (cb.flatten ++ line) > maxSz
    · obtain ⟨blocks, hflat, heq, hne⟩ := ih hrest [] (by simp)
      simp only [List.flatten_nil] at heq
      refine ⟨(if cb.isEmpty then [] else [cb]) ++ [line] :: blocks, ?_, ?_, ?_⟩
      · rcases cb with - | ⟨b, bs⟩
        · simpa using hflat
        · simp [hflat]
      · simp only [splitLoop]
        rw [if_pos hs, flatten_isEmpty_of_ne cb hcb, heq]
        rcases cb with - | ⟨b, bs⟩ <;> simp
      · intro blk hblk
        rcases cb with - | ⟨x, xs⟩
        · simp only [List.isEmpty_nil, if_true, List.nil_append,
            List.mem_cons] at hblk
          rcases hblk with rfl | hblk
          · exact List.cons_ne_nil line []
          · exact hne blk hblk
        · simp only [List.isEmpty_cons, Bool.false_eq_true, if_false,
            List.cons_append, List.nil_append, List.mem_cons] at hblk
          rcases hblk with rfl | rfl | hblk
          · exact List.cons_ne_nil x xs
          · exact List.cons_ne_nil line []
          · exact hne blk hblk
    · have hcb1 : ∀ l ∈ cb ++ [line], l ≠ [] := by
        intro l hl
        rcases List.mem_append.1 hl with h | h
        · exact hcb l h
        · rw [List.mem_singleton] at h; subst h; exact hline
      obtain ⟨blocks, hflat, heq, hne⟩ := ih hrest (cb ++ [line]) hcb1
      rw [List.flatten_append] at heq
      simp only [List.flatten_cons, List.flatten_nil, List.append_nil] at heq
      refine ⟨blocks, by simpa using hflat, ?_, hne⟩
      simp only [splitLoop]
      rw [if_neg hs]
      exact heq
/-- Every sub-segment the loop emits either fits within the limit or is one
of the input lines (the accumulation only ever grows while it fits; a line
is emitted alone exactly when it would overflow the accumulation). -/
theorem splitLoop_fits (key : Str) (maxSz : Nat) (lines : List Str) (cur : Str)
    (hcur : cur = [] ∨ singlePairSize key cur ≤ maxSz) :
    ∀ s ∈ splitLoop key maxSz lines cur,
      singlePairSize key s ≤ maxSz ∨ s ∈ lines := by
  induction lines generalizing cur with
  | nil =>
    intro s hs
    rcases cur with - | ⟨c, cs⟩
    · simp [splitLoop] at hs
    · simp [splitLoop] at hs
      subst hs
      rcases hcur with h | h
      · exact absurd h (by simp)
      · exact Or.inl h
  | cons line rest ih =>
    intro s hs
    by_cases hbig : singlePairSize key (cur ++ line) > maxSz
    · simp only [splitLoop, if_pos hbig] at hs
      rcases List.mem_append.1 hs with h | h
      · rcases cur with - | ⟨c, cs⟩
        · simp at h
        · simp at h
          subst h
          rcases hcur with h | h
          · exact absurd h (by simp)
          · exact Or.inl h
      · rcases List.mem_cons.1 h with rfl | h
        · exact Or.inr (by simp)
        · rcases ih [] (Or.inl rfl) s h with h1 | h1
          · exact Or.inl h1
          · exact Or.inr (by simp [h1])
    · simp only [splitLoop, if_neg hbig] at hs
      rcases ih (cur ++ line) (Or.inr (by omega)) s hs with h1 | h1
      · exact Or.inl h1
      · exact Or.inr (by simp [h1])

/-- The sub-segments of a segment concatenate back to the segment. -/
theorem subSegmentsOf_join (key : Str) (maxSz : Nat) (seg : Str) :
    (subSegmentsOf key maxSz seg).flatten = seg := by
  have hj : (splitLoop key maxSz (pySplitLines seg) []).flatten = seg := by
    rw [splitLoop_join]
    simpa using pySplitLines_join seg
  simp only [subSegmentsOf]
  split
  · next h =>
    rcases h with ⟨h1, h2⟩
    rw [List.isEmpty_iff] at h2
    simp [h2]
  · exact hj

/-- A segment always yields at least one sub-segment. -/
theorem subSegmentsOf_ne_nil (key : Str) (maxSz : Nat) (seg : Str) :
    subSegmentsOf key maxSz seg ≠ [] := by
  intro h
  have := subSegmentsOf_join key maxSz seg
  rw [h] at this
  simp at this
  subst this
  unfold subSegmentsOf at h
  simp [pySplitLines, pySplitLinesGo, splitLoop] at h
/-! ## Part 1 and the rebuild loop -/

theorem part1_ranges_lb (maxSz totalLen : Nat) (segs : List Str) (offset : Nat) :
    ∀ pr ∈ (part1 maxSz totalLen offset segs).2, offset ≤ pr.1 := by
  induction segs generalizing offset with
  | nil => simp [part1]
  | cons seg rest ih =>
    intro pr hpr
    simp only [part1] at hpr
    by_cases hbig : singlePairSize (natStr (totalLen + offset)) seg > maxSz
    · rw [if_pos hbig] at hpr
      simp only [List.mem_append] at hpr
      rcases hpr with h | h
      · by_cases h1 : 1 < (subSegmentsOf (natStr (totalLen + offset)) maxSz seg).length
        · rw [if_pos h1] at h
          rw [List.mem_singleton] at h
          subst h
          exact le_refl offset
        · rw [if_neg h1] at h
          simp at h
      · have := ih (offset + (subSegmentsOf (natStr (totalLen + offset)) maxSz seg).length) pr h
        omega
    · rw [if_neg hbig] at hpr
      have := ih (offset + 1) pr hpr
      omega

/-- Peeling one pass-through element off the rebuild loop: if every pending
range starts strictly after `pos`, position `pos` is copied through. -/
theorem rebuild_peel (ls : List Str) (pos : Nat) (rs : List (Nat × Nat))
    (hpos : pos < ls.length) (hrs : ∀ pr ∈ rs, pos < pr.1) :
    rebuild ls pos rs = ls.get ⟨pos, hpos⟩ :: rebuild ls (pos + 1) rs := by
  cases rs with
  | nil =>
    simp only [rebuild]
    rw [List.drop_eq_getElem_cons hpos]
    rfl
  | cons pr rest =>
    obtain ⟨s, e⟩ := pr
    have hlt : pos < s := hrs (s, e) (by simp)
    simp only [rebuild]
    rw [List.drop_eq_getElem_cons hpos]
    have h1 : s - pos = (s - (pos + 1)) + 1 := by omega
    rw [h1, List.take_succ_cons]
    rfl

/-- The rebuild of `part1`'s output over any list that extends a
length-`offset` prefix by the produced segments reproduces the input
segment list (this is the content-level round trip; the pass-through values
are read from `ls`, so `ls` must agree with the produced segments). -/
theorem part1_rebuild (maxSz totalLen : Nat) (segs : List Str) (offset : Nat)
    (pre : List Str) (hpre : pre.length = offset) :
    rebuild (pre ++ (part1 maxSz totalLen offset segs).1) offset
      (part1 maxSz totalLen offset segs).2 = segs := by
  induction segs generalizing offset pre with
  | nil =>
    simp only [part1, rebuild, List.append_nil]
    rw [← hpre, List.drop_length]
  | cons seg rest ih =>
    simp only [part1]
    by_cases hbig : singlePairSize (natStr (totalLen + offset)) seg > maxSz
    · rw [if_pos hbig]
      set key := natStr (totalLen + offset) with hkey
      set subs := subSegmentsOf key maxSz seg with hsubs
      by_cases h1 : 1 < subs.length
      · rw [if_pos h1]
        simp only [List.cons_append, List.nil_append]
        have hdrop : (pre ++ (subs ++ (part1 maxSz totalLen (offset + subs.length) rest).1)).drop offset
            = subs ++ (part1 maxSz totalLen (offset + subs.length) rest).1 := by
          rw [← hpre, List.drop_left]
        simp only [rebuild]
        rw [Nat.sub_self, List.take_zero, hdrop]
        have htake : (subs ++ (part1 maxSz totalLen (offset + subs.length) rest).1).take
            ((offset + subs.length) - offset) = subs := by
          rw [Nat.add_sub_cancel_left, List.take_left]
        rw [htake, subSegmentsOf_join]
        have hpre2 : (pre ++ subs).length = offset + subs.length := by
          simp [hpre]
        have := ih (offset + subs.length) (pre ++ subs) hpre2
        rw [List.append_assoc] at this
        rw [this]
        simp
      · rw [if_neg h1]
        have hne := subSegmentsOf_ne_nil key maxSz seg
        obtain ⟨x, hx⟩ : ∃ x, subs = [x] := by
          rcases hsub : subs with - | ⟨x, xs⟩
          · exact absurd hsub hne
          · rcases xs with - | ⟨y, ys⟩
            · exact ⟨x, rfl⟩
            · rw [hsub] at h1; simp at h1
        have hxseg : x = seg := by
          have := subSegmentsOf_join key maxSz seg
          rw [← hsubs, hx] at this
          simpa using this
        subst hxseg
        rw [hx]
        simp only [List.nil_append, List.singleton_append, List.length_cons,
          List.length_nil]
        have hpos : offset < (pre ++ x :: (part1 maxSz totalLen (offset + 1) rest).1).length := by
          simp [hpre]
        have hrs : ∀ pr ∈ (part1 maxSz totalLen (offset + 1) rest).2, offset < pr.1 := by
          intro pr hpr
          have := part1_ranges_lb maxSz totalLen rest (offset + 1) pr hpr
          omega
        rw [rebuild_peel _ offset _ hpos hrs]
        have hget : (pre ++ x :: (part1 maxSz totalLen (offset + 1) rest).1).get ⟨offset, hpos⟩ = x := by
          rcases hpre with rfl
          rw [List.get_eq_getElem, List.getElem_append_right (le_refl pre.length)]
          simp
        rw [hget]
        have hpre2 : (pre ++ [x]).length = offset + 1 := by simp [hpre]
        have := ih (offset + 1) (pre ++ [x]) hpre2
        rw [List.append_assoc] at this
        simpa using this
    · rw [if_neg hbig]
      simp only [List.cons_append]
      have hpos : offset < (pre ++ seg :: (part1 maxSz totalLen (offset + 1) rest).1).length := by
        simp [hpre]
      have hrs : ∀ pr ∈ (part1 maxSz totalLen (offset + 1) rest).2, offset < pr.1 := by
        intro pr hpr
        have := part1_ranges_lb maxSz totalLen rest (offset + 1) pr hpr
        omega
      rw [rebuild_peel _ offset _ hpos hrs]
      have hget : (pre ++ seg :: (part1 maxSz totalLen (offset + 1) rest).1).get ⟨offset, hpos⟩ = seg := by
        rcases hpre with rfl
        rw [List.get_eq_getElem, List.getElem_append_right (le_refl pre.length)]
        simp
      rw [hget]
      have hpre2 : (pre ++ [seg]).length = offset + 1 := by simp [hpre]
      have := ih (offset + 1) (pre ++ [seg]) hpre2
      rw [List.append_assoc] at this
      simpa using this
/-- Whatever values `ls` holds, if its length matches `offset` plus the
number of produced segments, the rebuild over `part1`'s ranges returns one
element per input segment. -/
theorem part1_rebuild_length (maxSz totalLen : Nat) (segs : List Str)
    (offset : Nat) (ls : List Str)
    (hlen : ls.length = offset + (part1 maxSz totalLen offset segs).1.length) :
    (rebuild ls offset (part1 maxSz totalLen offset segs).2).length = segs.length := by
  induction segs generalizing offset ls with
  | nil =>
    simp only [part1, rebuild] at *
    simp [hlen]
  | cons seg rest ih =>
    simp only [part1] at hlen ⊢
    by_cases hbig : singlePairSize (natStr (totalLen + offset)) seg > maxSz
    · rw [if_pos hbig] at hlen ⊢
      set subs := subSegmentsOf (natStr (totalLen + offset)) maxSz seg with hsubs
      by_cases h1 : 1 < subs.length
      · rw [if_pos h1]
        simp only [List.cons_append, List.nil_append, rebuild]
        rw [Nat.sub_self, List.take_zero]
        have := ih (offset + subs.length) ls (by
          simp only [List.length_append] at hlen ⊢
          omega)
        simp [this]
      · rw [if_neg h1]
        have hne := subSegmentsOf_ne_nil (natStr (totalLen + offset)) maxSz seg
        have hlen1 : subs.length = 1 := by
          rcases hsub : subs with - | ⟨y, ys⟩
          · exact absurd hsub hne
          · rcases ys with - | _
            · rfl
            · rw [hsub] at h1; simp at h1
        simp only [List.nil_append]
        have hpos : offset < ls.length := by
          simp only [List.length_append] at hlen
          omega
        have hrs : ∀ pr ∈ (part1 maxSz totalLen (offset + subs.length) rest).2,
            offset < pr.1 := by
          intro pr hpr
          have := part1_ranges_lb maxSz totalLen rest (offset + subs.length) pr hpr
          omega
        rw [rebuild_peel ls offset _ hpos hrs]
        have := ih (offset + subs.length) ls (by
          simp only [List.length_append] at hlen ⊢
          omega)
        rw [hlen1] at this
        simp [this, hlen1]
    · rw [if_neg hbig] at hlen ⊢
      have hpos : offset < ls.length := by
        simp only [List.length_cons] at hlen
        omega
      have hrs : ∀ pr ∈ (part1 maxSz totalLen (offset + 1) rest).2, offset < pr.1 := by
        intro pr hpr
        have := part1_ranges_lb maxSz totalLen rest (offset + 1) pr hpr
        omega
      rw [rebuild_peel ls offset _ hpos hrs]
      have := ih (offset + 1) ls (by
        simp only [List.length_cons] at hlen
        omega)
      simp [this]

/-- `part1` produces no segments only for the empty input. -/
theorem part1_fst_nil (maxSz totalLen : Nat) (segs : List Str) (offset : Nat)
    (h : (part1 maxSz totalLen offset segs).1 = []) : segs = [] := by
  cases segs with
  | nil => rfl
  | cons seg rest =>
    exfalso
    simp only [part1] at h
    by_cases hbig : singlePairSize (natStr (totalLen + offset)) seg > maxSz
    · rw [if_pos hbig] at h
      have hne := subSegmentsOf_ne_nil (natStr (totalLen + offset)) maxSz seg
      rcases List.append_eq_nil.1 h with ⟨h1, -⟩
      exact hne h1
    · rw [if_neg hbig] at h
      simp at h
/-! ## Part 2: packing invariants -/

/-- Every chunk the packing loop emits is non-empty, and any chunk with at
least two entries fits within `maxSz` (a single-entry chunk may exceed it:
it is seeded when the running chunk is empty, without a size check). -/
theorem part2Go_inv (maxSz : Nat) (vals : List Str) (chunk : List (Nat × Str))
    (idx : Nat) (hinv : 2 ≤ chunk.length → chunkSize chunk ≤ maxSz) :
    ∀ ck ∈ part2Go maxSz chunk idx vals,
      (2 ≤ ck.length → chunkSize ck ≤ maxSz) ∧ ck ≠ [] := by
  induction vals generalizing chunk idx with
  | nil =>
    intro ck hck
    rcases chunk with - | ⟨p, ps⟩
    · simp [part2Go] at hck
    · simp [part2Go] at hck
      subst hck
      exact ⟨hinv, by simp⟩
  | cons v rest ih =>
    intro ck hck
    simp only [part2Go] at hck
    by_cases hcond : chunkSize (chunk ++ [(idx, v)]) > maxSz ∧ ¬chunk.isEmpty
    · rw [if_pos hcond] at hck
      rcases List.mem_cons.1 hck with rfl | hck
      · refine ⟨hinv, ?_⟩
        intro h
        rw [h] at hcond
        simp at hcond
      · exact ih [(idx, v)] (idx + 1) (by intro h; simp at h) ck hck
    · rw [if_neg hcond] at hck
      refine ih (chunk ++ [(idx, v)]) (idx + 1) ?_ ck hck
      intro h2
      by_cases hle : chunkSize (chunk ++ [(idx, v)]) ≤ maxSz
      · exact hle
      · exfalso
        rcases chunk with - | ⟨p, ps⟩
        · simp at h2
        · exact hcond ⟨by omega, by simp⟩

/-- Every entry of every packed chunk is one of the enumerated values:
chunks carry `(i, new_segments[i])` pairs. -/
theorem part2Go_entries (maxSz : Nat) (ns : List Str) (vals : List Str)
    (chunk : List (Nat × Str)) (idx : Nat)
    (hvals : vals = ns.drop idx)
    (hchunk : ∀ p ∈ chunk, ns.get? p.1 = some p.2) :
    ∀ ck ∈ part2Go maxSz chunk idx vals, ∀ p ∈ ck, ns.get? p.1 = some p.2 := by
  induction vals generalizing chunk idx with
  | nil =>
    intro ck hck
    rcases chunk with - | ⟨p, ps⟩
    · simp [part2Go] at hck
    · simp [part2Go] at hck
      subst hck
      exact hchunk
  | cons v rest ih =>
    intro ck hck
    have hv : ns.get? idx = some v := by
      have h0 : (ns.drop idx).get? 0 = some v := by rw [← hvals]; rfl
      rw [List.get?_drop] at h0
      simpa using h0
    have hrest : rest = ns.drop (idx + 1) := by
      have htail : (v :: rest).tail = (ns.drop idx).tail := by rw [hvals]
      simpa [List.tail_drop] using htail
    have hext : ∀ p ∈ chunk ++ [(idx, v)], ns.get? p.1 = some p.2 := by
      intro p hp
      rcases List.mem_append.1 hp with h | h
      · exact hchunk p h
      · rw [List.mem_singleton] at h
        subst h
        exact hv
    simp only [part2Go] at hck
    by_cases hcond : chunkSize (chunk ++ [(idx, v)]) > maxSz ∧ ¬chunk.isEmpty
    · rw [if_pos hcond] at hck
      rcases List.mem_cons.1 hck with rfl | hck
      · exact hchunk
      · exact ih [(idx, v)] (idx + 1) hrest
          (by
            intro p hp
            rw [List.mem_singleton] at hp
            subst hp
            exact hv) ck hck
    · rw [if_neg hcond] at hck
      exact ih (chunk ++ [(idx, v)]) (idx + 1) hrest hext ck hck
/-! ## The merge loop of `send_segments` -/

theorem mergeChunkEntry_length (js : List (Str × Str)) (k v : Str) :
    (mergeChunkEntry js k v).length = js.length := by
  unfold mergeChunkEntry
  split <;> simp

theorem mergeChunk_length (js : List (Str × Str)) (ck : List (Str × Str)) :
    (mergeChunk js ck).length = js.length := by
  unfold mergeChunk
  induction ck generalizing js with
  | nil => rfl
  | cons p rest ih =>
    simp only [List.foldl_cons]
    rw [ih (mergeChunkEntry js p.1 p.2), mergeChunkEntry_length]

theorem mergeResults_length (js : List (Str × Str)) (results : List ChunkResult) :
    (mergeResults js results).length = js.length := by
  unfold mergeResults
  induction results generalizing js with
  | nil => rfl
  | cons r rest ih =>
    simp only [List.foldl_cons]
    cases r with
    | notDict => exact ih js
    | dict ck => rw [ih (mergeChunk js ck), mergeChunk_length]

/-- Overwriting a key with the value every matching entry already holds is
a no-op. -/
theorem mergeChunkEntry_noop (js : List (Str × Str)) (k v : Str)
    (h : ∀ p ∈ js, p.1 = k → p.2 = v) : mergeChunkEntry js k v = js := by
  unfold mergeChunkEntry
  split
  · have hmap : List.map (fun p => if p.1 = k then (k, v) else p) js
        = List.map id js := by
      apply List.map_congr_left
      intro p hp
      by_cases hk : p.1 = k
      · rw [if_pos hk, ← hk, ← h p hp hk]
        rfl
      · rw [if_neg hk]
        rfl
    rw [hmap, List.map_id]
  · rfl
/-- Merging one identity entry (`str(i)` mapped to the value stored at `i`)
into the enumerated originals changes nothing. -/
theorem mergeChunkEntry_identity (ns : List Str) (i : Nat) (v : Str)
    (hv : ns.get? i = some v) :
    mergeChunkEntry (ns.enum.map fun p => (natStr p.1, p.2)) (natStr i) v
      = ns.enum.map fun p => (natStr p.1, p.2) := by
  apply mergeChunkEntry_noop
  intro p hp hk
  rcases List.mem_map.1 hp with ⟨q, hq, rfl⟩
  have hq2 : ns.get? q.1 = some q.2 := List.mem_enum_iff_get?.1 hq
  have : q.1 = i := natStr_injective hk
  rw [this] at hq2
  rw [hv] at hq2
  simpa using hq2.symm

/-- Merging a whole identity chunk changes nothing. -/
theorem mergeChunk_identity (ns : List Str) (ck : List (Nat × Str))
    (hck : ∀ p ∈ ck, ns.get? p.1 = some p.2) :
    mergeChunk (ns.enum.map fun p => (natStr p.1, p.2))
      (ck.map fun p => (natStr p.1, p.2)) = ns.enum.map fun p => (natStr p.1, p.2) := by
  induction ck with
  | nil => rfl
  | cons p rest ih =>
    have h1 := mergeChunkEntry_identity ns p.1 p.2 (hck p (by simp))
    unfold mergeChunk at ih ⊢
    simp only [List.map_cons, List.foldl_cons]
    rw [h1]
    exact ih fun q hq => hck q (by simp [hq])

/-- Merging all identity chunks changes nothing. -/
theorem mergeResults_identity (ns : List Str) (cks : List (List (Nat × Str)))
    (hcks : ∀ ck ∈ cks, ∀ p ∈ ck, ns.get? p.1 = some p.2) :
    mergeResults (ns.enum.map fun p => (natStr p.1, p.2)) (identityResults cks)
      = ns.enum.map fun p => (natStr p.1, p.2) := by
  induction cks with
  | nil => rfl
  | cons ck rest ih =>
    have h1 := mergeChunk_identity ns ck (hcks ck (by simp))
    unfold mergeResults identityResults at ih ⊢
    simp only [List.map_cons, List.foldl_cons]
    rw [h1]
    exact ih fun c hc => hcks c (by simp [hc])

/-- The values of the enumerated originals are the produced segments. -/
theorem enum_values (ns : List Str) :
    ((ns.enum.map fun p => (natStr p.1, p.2)).map fun p => p.2) = ns := by
  rw [List.map_map]
  have : ((fun p : Str × Str => p.2) ∘ fun p : Nat × Str => (natStr p.1, p.2))
      = Prod.snd := by
    funext p
    rfl
  rw [this, List.enum_map_snd]
/-! ## Claim theorems for the chunk codec -/

/-- C2: for every ordered list of segments and every `chunk_size_max` at
least the JSON-serialized byte size of the largest single line, applying
`segments2json_chunks` and reassembling with the identity translation
(merging each chunk back into the indexed originals and concatenating every
merge range with no separator) reproduces the original segment list exactly.
(The proof does not even need the size bound: the round trip holds for every
`chunk_size_max`.) -/
theorem segments2json_chunks_roundTrip (segments : List Str) (maxSz : Nat)
    (hbound : ∀ seg ∈ segments, ∀ l ∈ pySplitLines seg, strJsonLen l ≤ maxSz) :
    roundTrip segments maxSz = segments := by
  by_cases hni : (part1 maxSz segments.length 0 segments).1.isEmpty = true
  · have hseg : segments = [] := part1_fst_nil _ _ _ _ (List.isEmpty_iff.1 hni)
    subst hseg
    rfl
  · have hcks : ∀ ck ∈ part2Go maxSz [] 0 (part1 maxSz segments.length 0 segments).1,
        ∀ p ∈ ck, (part1 maxSz segments.length 0 segments).1.get? p.1 = some p.2 :=
      part2Go_entries maxSz (part1 maxSz segments.length 0 segments).1
        (part1 maxSz segments.length 0 segments).1 [] 0
        (List.drop_zero _).symm (by simp)
    unfold roundTrip sendSegmentsModel segments2json_chunks
    simp only [if_neg hni]
    rw [mergeResults_identity _ _ hcks, enum_values]
    have := part1_rebuild maxSz segments.length segments 0 [] rfl
    simpa using this

/-- C10: whatever per-chunk results the dispatch produced (success dicts,
partial dicts, fallback dicts or non-dicts, with known or unknown keys),
`send_segments` returns exactly one output element per input segment. -/
theorem sendSegments_length (segments : List Str) (maxSz : Nat)
    (results : List ChunkResult) :
    (sendSegmentsModel segments maxSz results).length = segments.length := by
  by_cases hni : (part1 maxSz segments.length 0 segments).1.isEmpty = true
  · have hseg : segments = [] := part1_fst_nil _ _ _ _ (List.isEmpty_iff.1 hni)
    subst hseg
    unfold sendSegmentsModel segments2json_chunks
    simp only [part1, List.isEmpty_nil, if_true]
    have hlen := mergeResults_length [] results
    simp only [List.length_nil, List.length_eq_zero] at hlen
    rw [hlen]
    rfl
  · unfold sendSegmentsModel segments2json_chunks
    simp only [if_neg hni]
    apply part1_rebuild_length
    rw [List.length_map, mergeResults_length, List.length_map,
      List.enum_length, Nat.zero_add]
/-- C7: every chunk emitted by `segments2json_chunks`, except possibly a
single-candidate chunk, serializes to at most `chunk_size_max` bytes; every
emitted chunk is non-empty (when the whole input is empty no chunk is
emitted at all); and a candidate whose prospective size is exactly at the
boundary is packed into the running chunk (the comparison is strict `>`). -/
theorem chunk_invariants (segments : List Str) (maxSz : Nat) :
    (∀ ck ∈ (segments2json_chunks segments maxSz).2.1,
      (2 ≤ ck.length → chunkSize ck ≤ maxSz) ∧ ck ≠ []) ∧
    (∀ (chunk : List (Nat × Str)) (idx : Nat) (v : Str) (rest : List Str),
      chunkSize (chunk ++ [(idx, v)]) = maxSz →
      part2Go maxSz chunk idx (v :: rest)
        = part2Go maxSz (chunk ++ [(idx, v)]) (idx + 1) rest) := by
  constructor
  · intro ck hck
    unfold segments2json_chunks at hck
    by_cases hni : (part1 maxSz segments.length 0 segments).1.isEmpty = true
    · rw [if_pos hni] at hck
      simp at hck
    · rw [if_neg hni] at hck
      exact part2Go_inv maxSz _ [] 0 (by intro h; simp at h) ck hck
  · intro chunk idx v rest hsz
    simp only [part2Go]
    rw [if_neg]
    rintro ⟨hgt, -⟩
    omega

/-- C3 (amended): splitting an oversized segment by line preserves content
(the sub-segments concatenate to the segment), an empty segment yields one
empty sub-segment, every sub-segment either fits within the limit or is one
single original line (or is the empty sub-segment of the empty segment),
and for a non-empty segment the sub-segments are concatenations of
consecutive non-empty blocks of the segment's lines.  (The accumulation is
not maximally greedy: a line that overflows the running accumulation is
emitted as its own sub-segment even when it alone fits — see the
counterexample against the spec-worded `specGreedySplit`.) -/
theorem subSegmentsOf_amended (key : Str) (maxSz : Nat) (seg : Str) :
    (subSegmentsOf key maxSz seg).flatten = seg ∧
    (seg = [] → subSegmentsOf key maxSz seg = [[]]) ∧
    (∀ s ∈ subSegmentsOf key maxSz seg,
      singlePairSize key s ≤ maxSz ∨ s ∈ pySplitLines seg ∨ (seg = [] ∧ s = [])) ∧
    (seg ≠ [] → ∃ blocks : List (List Str),
      blocks.flatten = pySplitLines seg ∧
      subSegmentsOf key maxSz seg = blocks.map List.flatten ∧
      ∀ b ∈ blocks, b ≠ []) := by
  refine ⟨subSegmentsOf_join key maxSz seg, ?_, ?_, ?_⟩
  · intro hseg
    subst hseg
    rfl
  · intro s hs
    unfold subSegmentsOf at hs
    by_cases hcond : (splitLoop key maxSz (pySplitLines seg) []).isEmpty = true
        ∧ seg.isEmpty = true
    · rw [if_pos hcond] at hs
      rw [List.mem_singleton] at hs
      exact Or.inr (Or.inr ⟨List.isEmpty_iff.1 hcond.2, hs⟩)
    · rw [if_neg hcond] at hs
      rcases splitLoop_fits key maxSz (pySplitLines seg) [] (Or.inl rfl) s hs
        with h | h
      · exact Or.inl h
      · exact Or.inr (Or.inl h)
  · intro hseg
    obtain ⟨blocks, hflat, heq, hne⟩ :=
      splitLoop_blocks key maxSz (pySplitLines seg) (pySplitLines_ne_nil seg)
        [] (by simp)
    refine ⟨blocks, by simpa using hflat, ?_, hne⟩
    unfold subSegmentsOf
    rw [if_neg]
    · simpa using heq
    · rintro ⟨-, h2⟩
      exact hseg (List.isEmpty_iff.1 h2)

/-- C3 counterexample: with the one-digit estimation key and
`chunk_size_max = 16`, the segment `"aa\nbb\ncc"` is oversized and the
source splits it into `["aa\n", "bb\n", "cc"]`: the line `"bb\n"` becomes
its own sub-segment although it fits within the limit by itself, while the
spec-worded greedy accumulation would produce `["aa\n", "bb\ncc"]`. -/
theorem subSegmentsOf_ne_specGreedySplit :
    singlePairSize (natStr 1) ['a', 'a', '\n', 'b', 'b', '\n', 'c', 'c'] > 16 ∧
    subSegmentsOf (natStr 1) 16 ['a', 'a', '\n', 'b', 'b', '\n', 'c', 'c']
      = [['a', 'a', '\n'], ['b', 'b', '\n'], ['c', 'c']] ∧
    singlePairSize (natStr 1) ['b', 'b', '\n'] ≤ 16 ∧
    specGreedySplit (natStr 1) 16 ['a', 'a', '\n', 'b', 'b', '\n', 'c', 'c']
      = [['a', 'a', '\n'], ['b', 'b', '\n', 'c', 'c']] ∧
    subSegmentsOf (natStr 1) 16 ['a', 'a', '\n', 'b', 'b', '\n', 'c', 'c']
      ≠ specGreedySplit (natStr 1) 16 ['a', 'a', '\n', 'b', 'b', '\n', 'c', 'c'] := by
  refine ⟨by decide, by decide, by decide, by decide, by decide⟩
/-! ## The dispatch state machine -/

/-- Attempts after the first never touch the shared hard-error counter:
at `retry_count > 0` the counter is only read, never incremented. -/
theorem sendGo_errCount_of_pos {ρ π φ : Type} (cfg : SendCfg ρ π φ) (fuel : Nat) :
    ∀ (flag : Bool) (rc : Nat) (st : ErrState) (bp : Option π), 1 ≤ rc →
      (sendGo cfg fuel flag rc st bp).st.errCount = st.errCount := by
  induction fuel with
  | zero => intro flag rc st bp hrc; rfl
  | succ fuel ih =>
    intro flag rc st bp hrc
    cases h : cfg.outcome rc with
    | success r => simp [sendGo, h]
    | softInvalid =>
      simp only [sendGo, h]
      split
      · exact ih true (rc + 1) st bp (by omega)
      · rfl
    | softPartial p =>
      simp only [sendGo, h]
      split
      · exact ih true (rc + 1) st _ (by omega)
      · rfl
    | hard =>
      simp only [sendGo, h]
      split
      · split
        · omega
        · split
          · rfl
          · exact ih true (rc + 1) st bp (by omega)
      · rfl
/-- The shared hard-error counter after one logical request: it grows by
exactly one when the first attempt is a hard error (with retrying enabled
and a positive retry ceiling), and is unchanged otherwise — in particular
hard errors first occurring on a retry attempt and soft errors never
increment it. -/
theorem sendModel_errCount {ρ π φ : Type} (cfg : SendCfg ρ π φ) (flag : Bool)
    (st : ErrState) (bp : Option π) :
    (sendModel cfg flag st bp).st.errCount
      = st.errCount + (hardFirst cfg flag).toNat := by
  unfold sendModel hardFirst
  cases h : cfg.outcome 0 with
  | success r => simp [sendGo, h]
  | softInvalid =>
    simp only [sendGo, h]
    split
    · rw [sendGo_errCount_of_pos cfg cfg.retryMax true 1 st bp (le_refl 1)]
      simp
    · simp
  | softPartial p =>
    simp only [sendGo, h]
    split
    · rw [sendGo_errCount_of_pos cfg cfg.retryMax true 1 st _ (le_refl 1)]
      simp
    · simp
  | hard =>
    simp only [sendGo, h]
    split
    · next hc =>
      obtain ⟨hflag, hpos⟩ := hc
      have hval : (true && flag && decide (0 < cfg.retryMax)).toNat = 1 := by
        rw [hflag]
        simp [hpos]
      rw [hval]
      simp only [reduceIte]
      split
      · rfl
      · rw [sendGo_errCount_of_pos cfg cfg.retryMax true 1 _ bp (le_refl 1)]
    · next hc =>
      have hval : (true && flag && decide (0 < cfg.retryMax)).toNat = 0 := by
        rcases Decidable.not_and_iff_or_not.1 hc with h1 | h1
        · have : flag = false := by
            cases flag
            · rfl
            · exact absurd rfl h1
          rw [this]
          simp
        · have : ¬0 < cfg.retryMax := h1
          simp [this]
      rw [hval]
      simp
/-- Terminal dichotomy of one logical request: either some attempt
succeeded and its handled result is returned with the unresolved-error
counter untouched, or the request ends in a terminal fallback: the
unresolved-error counter grows by exactly one and the returned value is the
accumulated best partial result when one was accumulated, otherwise the
error handler applied to the prompt, otherwise the raw prompt.  `bp` must
satisfy the accumulation invariant (absent or truthy), which holds for the
actual top-level call (`bp = None`). -/
theorem sendGo_terminal {ρ π φ : Type} (cfg : SendCfg ρ π φ) (fuel : Nat) :
    ∀ (flag : Bool) (rc : Nat) (st : ErrState) (bp : Option π),
      (∀ p, bp = some p → cfg.partTruthy p = true) →
      1 ≤ fuel → fuel + rc = cfg.retryMax + 1 →
      (∃ r, (sendGo cfg fuel flag rc st bp).ret = .ok r ∧
        (sendGo cfg fuel flag rc st bp).st.unresolved = st.unresolved) ∨
      ((sendGo cfg fuel flag rc st bp).st.unresolved = st.unresolved + 1 ∧
        ((∃ p, (sendGo cfg fuel flag rc st bp).bp = some p ∧
          (sendGo cfg fuel flag rc st bp).ret = .fromPartial p) ∨
         ((sendGo cfg fuel flag rc st bp).bp = none ∧
          (sendGo cfg fuel flag rc st bp).ret = promptFallback cfg))) := by
  induction fuel with
  | zero => intro flag rc st bp hbp h1 h2; omega
  | succ fuel ih =>
    intro flag rc st bp hbp h1 h2
    cases h : cfg.outcome rc with
    | success r =>
      left
      exact ⟨r, by simp [sendGo, h], by simp [sendGo, h]⟩
    | softInvalid =>
      simp only [sendGo, h]
      split
      · next hg =>
        exact ih true (rc + 1) st bp hbp (by omega) (by omega)
      · right
        refine ⟨rfl, ?_⟩
        rcases hbpv : bp with - | p
        · exact Or.inr ⟨rfl, by simp [fallbackRet]⟩
        · exact Or.inl ⟨p, rfl, by simp [fallbackRet, hbp p hbpv]⟩
    | softPartial p0 =>
      simp only [sendGo, h]
      have hbp1 : ∀ p, (if cfg.partTruthy p0 then some p0 else bp) = some p →
          cfg.partTruthy p = true := by
        intro p hp
        by_cases ht : cfg.partTruthy p0 = true
        · rw [if_pos ht] at hp
          have : p0 = p := by simpa using hp
          rw [← this]
          exact ht
        · rw [if_neg ht] at hp
          exact hbp p hp
      split
      · exact ih true (rc + 1) st _ hbp1 (by omega) (by omega)
      · right
        refine ⟨rfl, ?_⟩
        rcases hbpv : (if cfg.partTruthy p0 then some p0 else bp) with - | p
        · exact Or.inr ⟨rfl, by simp [fallbackRet, hbpv]⟩
        · exact Or.inl ⟨p, rfl, by simp [fallbackRet, hbpv, hbp1 p hbpv]⟩
    | hard =>
      simp only [sendGo, h]
      have hterm : (st.unresolved + 1 = st.unresolved + 1 ∧
          ((∃ p, bp = some p ∧ fallbackRet cfg bp = SendRet.fromPartial p) ∨
           (bp = none ∧ fallbackRet cfg bp = promptFallback cfg))) := by
        refine ⟨rfl, ?_⟩
        rcases hbpv : bp with - | p
        · exact Or.inr ⟨rfl, by simp [fallbackRet]⟩
        · exact Or.inl ⟨p, rfl, by simp [fallbackRet, hbp p hbpv]⟩
      split
      · split
        · split
          · exact Or.inr hterm
          · exact ih true (rc + 1) _ bp hbp (by omega) (by omega)
        · split
          · exact Or.inr hterm
          · exact ih true (rc + 1) st bp hbp (by omega) (by omega)
      · exact Or.inr hterm
/-! ## Claim theorems for the dispatch agent -/

/-- C1 (amended): at the start of a `send_prompts` / `send_prompts_async`
batch the ceiling of the shared counter is set to `len(prompts) // 15` and
the unresolved-error and token counters are reset, but the hard-error
occurrence count itself is not reset: it keeps its value from previous
batches on the same agent instance, and if that carried count already
exceeds the new ceiling the budget is tripped before any request is sent. -/
theorem batchStart_resets_all_but_errCount (n : Nat) (g : AgentGlobal) :
    (batchStart n g).errCount = g.errCount ∧
    (batchStart n g).maxErrors = n / 15 ∧
    (batchStart n g).unresolved = 0 ∧
    (batchStart n g).tokens = tokenStatsZero ∧
    (n / 15 < g.errCount → reachLimitG (batchStart n g) = true) := by
  refine ⟨rfl, rfl, rfl, rfl, ?_⟩
  intro h
  simp only [reachLimitG, batchStart]
  exact decide_eq_true h

theorem batchStart_resets_all_but_errCount_witness :
    (batchStart 30 ⟨7, 0, 3, ⟨1, 2, 3, 4, 5⟩⟩).errCount = 7 ∧
    (batchStart 30 ⟨7, 0, 3, ⟨1, 2, 3, 4, 5⟩⟩).maxErrors = 2 ∧
    (batchStart 30 ⟨7, 0, 3, ⟨1, 2, 3, 4, 5⟩⟩).unresolved = 0 ∧
    reachLimitG (batchStart 30 ⟨7, 0, 3, ⟨1, 2, 3, 4, 5⟩⟩) = true := by
  obtain ⟨h1, h2, h3, -, h5⟩ :=
    batchStart_resets_all_but_errCount 30 ⟨7, 0, 3, ⟨1, 2, 3, 4, 5⟩⟩
  exact ⟨h1, h2, h3, h5 (by decide)⟩

/-- C1 counterexample: an agent that carries 7 hard errors from a previous
batch still has count 7 — not 0 — immediately after the next batch call
sets its ceiling, contradicting the claimed reset. -/
theorem batchStart_does_not_zero_errCount :
    (batchStart 30 ⟨7, 0, 3, ⟨1, 2, 3, 4, 5⟩⟩).maxErrors = 30 / 15 ∧
    ¬(batchStart 30 ⟨7, 0, 3, ⟨1, 2, 3, 4, 5⟩⟩).errCount = 0 := by
  exact ⟨rfl, by decide⟩

/-- C4 (amended): the shared hard-error counter grows by exactly one when
and only when the request's first attempt (`retry_count == 0`) is a hard
error, retrying is enabled and the retry ceiling is positive; attempts with
`retry_count > 0` never change it (so soft errors, and hard errors first
occurring on a retry, are never counted). -/
theorem errorBudget_counted_only_on_first_attempt {ρ π φ : Type}
    (cfg : SendCfg ρ π φ) (flag : Bool) (st : ErrState) (bp : Option π) :
    (sendModel cfg flag st bp).st.errCount
      = st.errCount + (hardFirst cfg flag).toNat ∧
    (∀ (fuel rc : Nat) (st2 : ErrState) (bp2 : Option π), 1 ≤ rc →
      (sendGo cfg fuel true rc st2 bp2).st.errCount = st2.errCount) :=
  ⟨sendModel_errCount cfg flag st bp,
   fun fuel rc st2 bp2 h => sendGo_errCount_of_pos cfg fuel true rc st2 bp2 h⟩

theorem errorBudget_counted_only_on_first_attempt_witness :
    (sendModel cfgC4 true ⟨0, 5, 0⟩ none).st.errCount
      = 0 + (hardFirst cfgC4 true).toNat ∧
    (sendGo cfgC4 3 true 1 ⟨0, 5, 0⟩ none).st.errCount = 0 :=
  ⟨(errorBudget_counted_only_on_first_attempt cfgC4 true ⟨0, 5, 0⟩ none).1,
   (errorBudget_counted_only_on_first_attempt cfgC4 true ⟨0, 5, 0⟩ none).2
     3 1 ⟨0, 5, 0⟩ none (by decide)⟩

/-- C4 counterexample: this request executes three attempts and encounters
a hard error on its second attempt (`retry_count == 1`), yet the shared
counter is not incremented at all — refuting "incremented exactly once for
every logical request that encounters hard errors". -/
theorem hard_error_on_retry_not_counted :
    cfgC4.outcome 1 = .hard ∧
    (sendModel cfgC4 true ⟨0, 5, 0⟩ none).attempts = 3 ∧
    (sendModel cfgC4 true ⟨0, 5, 0⟩ none).st.errCount = 0 := by
  refine ⟨by decide, by decide, by decide⟩

/-- C5: every logical request either returns a handled success value
(leaving the unresolved-error counter untouched), or terminates in the
fallback with this exact priority — the accumulated best partial result if
one was accumulated, otherwise the caller-supplied error handler applied to
the original prompt, otherwise the raw prompt — and every such terminal
fallback increments the unresolved-error counter by exactly one.  The
dispatch is a total function of the attempt outcomes: no enumerated failure
escapes as an exception. -/
theorem send_terminal_fallback_priority {ρ π φ : Type} (cfg : SendCfg ρ π φ)
    (flag : Bool) (st : ErrState) :
    (∃ r, (sendModel cfg flag st none).ret = .ok r ∧
      (sendModel cfg flag st none).st.unresolved = st.unresolved) ∨
    ((sendModel cfg flag st none).st.unresolved = st.unresolved + 1 ∧
      ((∃ p, (sendModel cfg flag st none).bp = some p ∧
        (sendModel cfg flag st none).ret = .fromPartial p) ∨
       ((sendModel cfg flag st none).bp = none ∧
        (sendModel cfg flag st none).ret = promptFallback cfg))) :=
  sendGo_terminal cfg (cfg.retryMax + 1) flag 0 st none
    (fun p hp => by simp at hp) (by omega) (by omega)
/-! ## Claim theorems for the result reconciler -/

theorem lookupS_isSome_iff {α : Type u} (l : List (String × α)) (k : String) :
    (lookupS l k).isSome = true ↔ k ∈ l.map fun p => p.1 := by
  induction l with
  | nil => simp [lookupS]
  | cons p rest ih =>
    by_cases hk : p.1 = k
    · simp [lookupS, hk]
    · simp only [lookupS, if_neg hk, List.map_cons, List.mem_cons]
      rw [ih]
      constructor
      · exact Or.inr
      · rintro (h | h)
        · exact absurd h.symm hk
        · exact h

/-- A received dict whose key set differs from the sent key set is never
Python-equal to the sent dict. -/
theorem pyDictEq_false_of_keys_ne {υ : Type} (eqS : υ → String → Bool)
    (d : List (String × υ)) (o : List (String × String))
    (hnd : (d.map fun p => p.1).Nodup) (hno : (o.map fun p => p.1).Nodup)
    (hne : (d.map fun p => p.1).toFinset ≠ (o.map fun p => p.1).toFinset) :
    pyDictEq eqS d o = false := by
  by_contra h
  have htrue : pyDictEq eqS d o = true := by
    cases heq : pyDictEq eqS d o
    · exact absurd heq h
    · rfl
  unfold pyDictEq at htrue
  rw [Bool.and_eq_true] at htrue
  obtain ⟨hlen, hall⟩ := htrue
  rw [beq_iff_eq] at hlen
  have hsub : (d.map fun p => p.1).toFinset ⊆ (o.map fun p => p.1).toFinset := by
    intro k hk
    rw [List.mem_toFinset] at hk ⊢
    rcases List.mem_map.1 hk with ⟨p, hp, rfl⟩
    rw [List.all_eq_true] at hall
    have := hall p hp
    rw [← lookupS_isSome_iff]
    cases hlk : lookupS o p.1 with
    | none => rw [hlk] at this; simp at this
    | some s => rfl
  have hcard : (o.map fun p => p.1).toFinset.card ≤ (d.map fun p => p.1).toFinset.card := by
    rw [List.toFinset_card_of_nodup hnd, List.toFinset_card_of_nodup hno]
    simp [hlen]
  exact hne (Finset.eq_of_subset_of_card_le hsub hcard)

/-- C6: on a key-set mismatch the reconciler raises `PartialAgentResultError`
carrying a merged dict whose key list is exactly the sent key list — the
stringified received value for keys present in both, the original sent text
for keys missing from the response — and every merged key is a sent key
(extra unknown keys are dropped). -/
theorem reconciler_key_mismatch {υ : Type} (eqS : υ → String → Bool)
    (pyStr : υ → String) (original : List (String × String))
    (d : List (String × υ))
    (hno : (original.map fun p => p.1).Nodup)
    (hnd : (d.map fun p => p.1).Nodup)
    (hne : (d.map fun p => p.1).toFinset ≠ (original.map fun p => p.1).toFinset) :
    resultHandlerCore eqS pyStr original (.dict d)
      = .partialRes (mergedOf pyStr d original) ∧
    (mergedOf pyStr d original).map (fun p => p.1) = original.map (fun p => p.1) ∧
    (∀ q ∈ original, ∀ v, lookupS d q.1 = some v →
      (q.1, pyStr v) ∈ mergedOf pyStr d original) ∧
    (∀ q ∈ original, lookupS d q.1 = none → q ∈ mergedOf pyStr d original) ∧
    (∀ p ∈ mergedOf pyStr d original, p.1 ∈ original.map fun p => p.1) := by
  have hkeys : (mergedOf pyStr d original).map (fun p => p.1)
      = original.map fun p => p.1 := by
    unfold mergedOf
    rw [List.map_map]
    rfl
  refine ⟨?_, hkeys, ?_, ?_, ?_⟩
  · have hfalse : ¬pyDictEq eqS d original = true := by
      rw [pyDictEq_false_of_keys_ne eqS d original hnd hno hne]
      exact Bool.false_ne_true
    simp only [resultHandlerCore]
    rw [if_neg hfalse, if_pos hne]
  · intro q hq v hv
    unfold mergedOf
    refine List.mem_map.2 ⟨q, hq, ?_⟩
    rw [hv]
  · intro q hq hv
    unfold mergedOf
    refine List.mem_map.2 ⟨q, hq, ?_⟩
    rw [hv]
  · intro p hp
    rw [← hkeys]
    exact List.mem_map_of_mem (fun p => p.1) hp

theorem reconciler_key_mismatch_witness :
    resultHandlerCore (fun v s => v == s) (fun v => v)
      [("0", "a"), ("1", "b")] (.dict [("0", "X"), ("2", "Z")])
      = .partialRes [("0", "X"), ("1", "b")] ∧
    ("1", "b") ∈ mergedOf (fun v : String => v) [("0", "X"), ("2", "Z")]
      [("0", "a"), ("1", "b")] := by
  obtain ⟨h1, -, -, h4, -⟩ :=
    reconciler_key_mismatch (fun v s => v == s) (fun v => v)
      [("0", "a"), ("1", "b")] [("0", "X"), ("2", "Z")]
      (by decide) (by decide) (by decide)
  refine ⟨?_, h4 ("1", "b") (by decide) (by decide)⟩
  rw [h1]
  rfl
/-- C8: the reconciler raises `AgentResultError` whenever the received
content is not a mapping, and whenever the received dict is Python-equal to
the sent chunk (in particular when the response is byte-identical to the
sent chunk, since identical bytes parse to the same dict); and a soft
invalid outcome is never counted against the hard-error budget (the counter
changes only when the first attempt is a hard error). -/
theorem reconciler_invalid_on_echo_or_nondict {υ : Type}
    (eqS : υ → String → Bool) (pyStr : υ → String)
    (original : List (String × String)) (d : List (String × υ))
    (hecho : pyDictEq eqS d original = true) :
    resultHandlerCore eqS pyStr original .notDict = .invalid ∧
    resultHandlerCore eqS pyStr original (.dict d) = .invalid ∧
    (∀ (ρ π φ : Type) (cfg : SendCfg ρ π φ) (flag : Bool) (st : ErrState)
      (bp : Option π), cfg.outcome 0 = .softInvalid →
      (sendModel cfg flag st bp).st.errCount = st.errCount) := by
  refine ⟨rfl, ?_, ?_⟩
  · simp only [resultHandlerCore]
    rw [if_pos hecho]
  · intro ρ π φ cfg flag st bp hout
    rw [sendModel_errCount cfg flag st bp]
    simp [hardFirst, hout]

theorem reconciler_invalid_on_echo_or_nondict_witness :
    resultHandlerCore (fun v s => v == s) (fun v : String => v)
      [("0", "a")] (.dict [("0", "a")]) = .invalid ∧
    (sendModel cfgC8 true ⟨0, 5, 0⟩ none).st.errCount = 0 := by
  obtain ⟨-, h2, h3⟩ :=
    reconciler_invalid_on_echo_or_nondict (fun v s => v == s)
      (fun v : String => v) [("0", "a")] [("0", "a")] (by decide)
  exact ⟨h2, h3 Unit Unit Unit cfgC8 true ⟨0, 5, 0⟩ none rfl⟩
/-! ## Claim theorems for token-usage extraction -/

/-- C9 (amended): if the `usage` envelope is absent all four token fields
are zero; if a nested detail value is malformed (here: a number where a
container is expected, so the membership test raises `TypeError`) all four
fields are the `-1` sentinel; but the batch-level summary flags extraction
failure only when the accumulated input-token total is negative — a lone
failed request is flagged, while a `-1` sentinel summed with larger real
counts is silently reported as a count. -/
theorem token_extraction_amended :
    (∀ response : List (String × J), jLookup response "usage" = none →
      extract_token_info response
        = some (J.num 0, J.num 0, J.num 0, J.num 0)) ∧
    (∀ (response uf : List (String × J)) (m : Int),
      jLookup response "usage" = some (J.obj uf) →
      jLookup uf "input_tokens_details" = some (J.num m) →
      extract_token_info response
        = some (J.num (-1), J.num (-1), J.num (-1), J.num (-1))) ∧
    (∀ qs : List (Int × Int × Int × Int), 0 ≤ (tokenFold qs).input →
      summaryFailed (tokenFold qs) = false) ∧
    summaryFailed (tokenFold [((-1 : Int), (-1 : Int), (-1 : Int), (-1 : Int))])
      = true := by
  refine ⟨?_, ?_, ?_, by decide⟩
  · intro response h
    simp [extract_token_info, h]
  · intro response uf m h1 h2
    have hc : cachedOf uf = .error () := by
      simp [cachedOf, h2, pyIn, Bind.bind, Except.bind]
    simp [extract_token_info, h1, hc, Bind.bind, Except.bind]
  · intro qs h
    simp only [summaryFailed]
    rw [decide_eq_false]
    omega

theorem token_extraction_amended_witness :
    extract_token_info [("id", J.str "x")]
      = some (J.num 0, J.num 0, J.num 0, J.num 0) ∧
    extract_token_info
      [("usage", J.obj [("prompt_tokens", J.num 5), ("input_tokens_details", J.num 7)])]
      = some (J.num (-1), J.num (-1), J.num (-1), J.num (-1)) ∧
    summaryFailed (tokenFold [((5 : Int), (0 : Int), (3 : Int), (0 : Int))]) = false := by
  obtain ⟨h1, h2, h3, -⟩ := token_extraction_amended
  refine ⟨h1 [("id", J.str "x")] rfl, ?_, ?_⟩
  · exact h2 [("usage", J.obj [("prompt_tokens", J.num 5), ("input_tokens_details", J.num 7)])]
      [("prompt_tokens", J.num 5), ("input_tokens_details", J.num 7)] 7 rfl rfl
  · exact h3 [((5 : Int), (0 : Int), (3 : Int), (0 : Int))] (by decide)

/-- C9 counterexample: a two-request batch whose second request's extraction
fails with the `-1` sentinel; the accumulated input total is `5 - 1 = 4`,
so the batch summary's negativity test does not fire and the sentinel is
silently summed into the reported counts instead of being rendered as an
extraction failure. -/
theorem token_sentinel_summed_into_counts :
    extract_token_info
      [("usage", J.obj [("prompt_tokens", J.num 5), ("completion_tokens", J.num 3),
        ("input_tokens_details", J.num 7)])]
      = some (J.num (-1), J.num (-1), J.num (-1), J.num (-1)) ∧
    (tokenFold [((5 : Int), (0 : Int), (3 : Int), (0 : Int)),
      ((-1 : Int), (-1 : Int), (-1 : Int), (-1 : Int))]).input = 4 ∧
    summaryFailed (tokenFold [((5 : Int), (0 : Int), (3 : Int), (0 : Int)),
      ((-1 : Int), (-1 : Int), (-1 : Int), (-1 : Int))]) = false := by
  refine ⟨rfl, by decide, by decide⟩
theorem segments2json_chunks_roundTrip_witness :
    (∀ seg ∈ [['a', 'b']], ∀ l ∈ pySplitLines seg, strJsonLen l ≤ 100) ∧
    roundTrip [['a', 'b']] 100 = [['a', 'b']] :=
  ⟨by decide, segments2json_chunks_roundTrip [['a', 'b']] 100 (by decide)⟩

theorem chunk_invariants_witness :
    (chunkSize [(0, ['a']), (1, ['b'])] ≤ 100 ∧ [(0, ['a']), (1, ['b'])] ≠ []) ∧
    part2Go 10 [] 0 [['a']] = part2Go 10 [(0, ['a'])] 1 [] := by
  refine ⟨?_, ?_⟩
  · have h := (chunk_invariants [['a'], ['b']] 100).1 [(0, ['a']), (1, ['b'])] (by decide)
    exact ⟨h.1 (by decide), h.2⟩
  · exact (chunk_invariants [] 10).2 [] 0 ['a'] [] (by decide)

theorem subSegmentsOf_amended_witness :
    (subSegmentsOf (natStr 1) 16 ['a', 'a', '\n', 'b', 'b', '\n', 'c', 'c']).flatten
      = ['a', 'a', '\n', 'b', 'b', '\n', 'c', 'c'] ∧
    subSegmentsOf (natStr 1) 16 [] = [[]] ∧
    (singlePairSize (natStr 1) ['b', 'b', '\n'] ≤ 16 ∨
      ['b', 'b', '\n'] ∈ pySplitLines ['a', 'a', '\n', 'b', 'b', '\n', 'c', 'c'] ∨
      (['a', 'a', '\n', 'b', 'b', '\n', 'c', 'c'] = ([] : Str)
        ∧ ['b', 'b', '\n'] = ([] : Str))) := by
  obtain ⟨h1, -, h3, -⟩ :=
    subSegmentsOf_amended (natStr 1) 16 ['a', 'a', '\n', 'b', 'b', '\n', 'c', 'c']
  obtain ⟨-, h2, -, -⟩ := subSegmentsOf_amended (natStr 1) 16 []
  exact ⟨h1, h2 rfl, h3 ['b', 'b', '\n'] (by decide)⟩
